import Mathlib

/-!
Shallow embedding of the packet-transform core of the xt_WGOBFS kernel module
(src/kernel/xt_WGOBFS_main.c).

A UDP payload is modelled as a `List Nat` of byte values; each C function that
mutates the payload in place becomes a Lean function from the old buffer to the
new one.  The chacha8 stream-hash primitive (chacha8.h, consumed as a black box
by the module) is abstracted as a parameter `ch : Chacha`, where
`ch seed key i` is byte `i` of the keystream block derived from the 8-byte
`seed` and the key.  Kernel randomness (`get_random_bytes_wait`) is modelled as
an explicit stream of 32-byte blocks, and the unbounded redraw loop of
`get_random_insert` as fuel-indexed recursion.
-/

set_option maxRecDepth 40000

namespace WGObfs

/-- Keystream primitive: `ch seed key i` = byte `i` of the chacha8 output block
for the given 8-byte seed and key (chacha8_hash in chacha8.h; external). -/
abbrev Chacha := List Nat → List Nat → Nat → Nat

/-- The last `n` bytes of a buffer (`buf + len - n` in the C code). -/
def lastBytes (n : Nat) (l : List Nat) : List Nat := l.drop (l.length - n)

/-- Flat in-place write of `src` at byte offset `off` of `buf`, as done by C
pointer stores/`memcpy`: bytes of `src` landing inside `buf` overwrite it, the
buffer's length never changes, and any part of the write falling beyond the end
of `buf` lands outside the modelled buffer. -/
def writeAt (buf : List Nat) (off : Nat) (src : List Nat) : List Nat :=
  buf.take off ++ src.take (buf.length - off) ++ buf.drop (off + src.length)

/-- Modelled from the spec: the 16-byte mac2 tag field of a WireGuard
handshake-initiation message sits at the fixed trailing offset 132 of the
148-byte message (struct wg_message_handshake_initiation in wg.h, which is not
in src/). -/
def macs2OffsetInit : Nat := 132

/-- Modelled from the spec: the 16-byte mac2 tag field of a WireGuard
handshake-response message sits at the fixed trailing offset 76 of the 92-byte
message (struct wg_message_handshake_response in wg.h, which is not in
src/). -/
def macs2OffsetResp : Nat := 76

/-- `obfs_mac2`: on a handshake-initiation (type 0x01, length 148) or
handshake-response (type 0x02, length 92) whose mac2 tag has an all-zero first
u32, overwrite the 16-byte mac2 with chacha8 output seeded from bytes 8..15 of
the packet, and set bit 0x10 on the type byte; otherwise leave the buffer
unchanged. -/
def obfs_mac2 (ch : Chacha) (key buf : List Nat) : List Nat :=
  let t := buf.getD 0 0
  let len := buf.length
  if (t = 1 ∧ len = 148) ∨ (t = 2 ∧ len = 92) then
    let off := if t = 1 then macs2OffsetInit else macs2OffsetResp
    if ((buf.drop off).take 4).all (fun b => b = 0) then
      let ks := (List.range 16).map (ch ((buf.drop 8).take 8) key)
      writeAt (writeAt buf off ks) 0 [Nat.lor t 16]
    else buf
  else buf

/-- `random_drop_wg_keepalive`: a 32-byte data message (type 0x04) is flagged
for dropping iff byte 0 of the keystream seeded from its last 8 bytes
exceeds 50. -/
def random_drop_wg_keepalive (ch : Chacha) (key buf : List Nat) : Bool :=
  if buf.getD 0 0 = 4 ∧ buf.length = 32 then
    decide (50 < ch (lastBytes 8 buf) key 0)
  else
    false

/-- One scan of a freshly drawn random block in `get_random_insert`: the first
byte in `[mn, mx]`, or 0 when the block has none. -/
def scanBlock (blk : List Nat) (mn mx : Nat) : Nat :=
  (blk.find? (fun b => decide (mn ≤ b ∧ b ≤ mx))).getD 0

/-- `get_random_insert`: repeatedly draw a 32-byte random block (`stream j` is
the `j`-th draw) and scan it for a byte in `[mn, mx]`, until the scan yields a
nonzero byte.  The C loop is unbounded; it is modelled with explicit fuel, and
returns the selected byte together with the block it came from (the block is
kept in `ob.rnd` and later used as padding). -/
def get_random_insert (stream : Nat → List Nat) (mn mx : Nat) :
    Nat → Nat → Option (Nat × List Nat)
  | 0, _ => none
  | fuel + 1, j =>
    let blk := stream j
    let r := scanBlock blk mn mx
    if 0 < r then some (r, blk) else get_random_insert stream mn mx fuel (j + 1)

/-- XOR the first 16 bytes of a buffer with keystream bytes 0..15. -/
def mask16 (prn : Nat → Nat) (buf : List Nat) : List Nat :=
  writeAt buf 0 ((List.range 16).map (fun i => Nat.xor (buf.getD i 0) (prn i)))

/-- `obfs_wg`: randomize the mac2 tag, derive the keystream from the last 8
bytes of the (tag-randomized) message, XOR it into the first 16 bytes, and
prepend `r` padding bytes taken from the random block `blk`, with the first
padding byte replaced by `r XOR keystream[16]`.  In the module the length
argument is whatever value `ob->rnd_len` holds (line 142) and `blk` is the
memory starting at `ob->rnd`. -/
def obfs_wg (ch : Chacha) (key blk : List Nat) (r : Nat) (buf : List Nat) :
    List Nat :=
  let m1 := obfs_mac2 ch key buf
  let prn := ch (lastBytes 8 m1) key
  let pad := (Nat.xor r (prn 16) :: blk.drop 1).take r
  pad ++ mask16 prn m1

/-- `max_rnd_len` in `xt_obfs`: padding upper bound 8 for messages longer than
200 bytes, 32 otherwise. -/
def widthPolicy (len : Nat) : Nat := if 200 < len then 8 else 32

/-- `xt_obfs` as a transform of the UDP payload.  Flagged keepalives are
dropped (`none`), otherwise a padding length `r` in `[4, widthPolicy len]` is
selected via `get_random_insert` — but the source stores it only in the local
`rnd_len` (line 202) and never assigns `ob.rnd_len`, while `obfs_wg`
(line 142) takes its padding length from that field.  `g` is the
indeterminate value the uninitialized field holds, and `junk` supplies the
other indeterminate memory the slip exposes: the bytes of the `obfs_buf`
struct past `ob.rnd` (read by the `memcpy` when `g` exceeds 32) and the skb
tailroom past the bytes `obfs_wg` wrote (transmitted when `g < r`).  The skb
and the IP/UDP lengths grow by the selected `r` (lines 203, 215, 227), so the
transmitted payload is the first `len + r` bytes of the memory `obfs_wg`
produced.  `none` also models the kernel drop when no padding length was
obtained. -/
def xt_obfs (ch : Chacha) (key : List Nat) (stream : Nat → List Nat)
    (fuel : Nat) (g : Nat) (junk : Nat → Nat) (buf : List Nat) :
    Option (List Nat) :=
  if random_drop_wg_keepalive ch key buf then none
  else
    match get_random_insert stream 4 (widthPolicy buf.length) fuel 0 with
    | none => none
    | some (r, blk) =>
      some ((obfs_wg ch key (blk ++ (List.range 256).map junk) g buf
        ++ (List.range r).map (fun i => junk (256 + i))).take (buf.length + r))

/-- `restore_mac2`: if the type byte is 0x11 (resp. 0x12), zero the 16 bytes at
the handshake-initiation (resp. handshake-response) mac2 struct offset, then
clear the high nibble of the type byte. -/
def restore_mac2 (buf : List Nat) : List Nat :=
  let b1 :=
    if buf.getD 0 0 = 17 then writeAt buf macs2OffsetInit (List.replicate 16 0)
    else if buf.getD 0 0 = 18 then
      writeAt buf macs2OffsetResp (List.replicate 16 0)
    else buf
  writeAt b1 0 [Nat.land (b1.getD 0 0) 15]

/-- `restore_wg`: derive the keystream from the last 8 bytes, unmask byte 0 in
place to recover the padding length `r`, fail (`Except.error` carrying the
buffer as left in memory) when `r + 32` exceeds the datagram length, otherwise
strip the `r`-byte prefix, un-XOR the first 16 bytes and restore mac2,
returning `r` and the recovered message. -/
def restore_wg (ch : Chacha) (key buf : List Nat) :
    Except (List Nat) (Nat × List Nat) :=
  let len := buf.length
  let prn := ch (lastBytes 8 buf) key
  let r := Nat.xor (buf.getD 0 0) (prn 16)
  let buf1 := writeAt buf 0 [r]
  if r + 32 > len then Except.error buf1
  else
    let buf2 := buf1.drop r
    Except.ok (r, restore_mac2 (mask16 prn buf2))

/-- `xt_unobfs` as a transform of the UDP payload: drop datagrams shorter than
4 bytes untouched, run `restore_wg`, and on its failure drop the datagram in
the state `restore_wg` left it.  The first component is the verdict (`none` =
NF_DROP), the second the final buffer state. -/
def xt_unobfs (ch : Chacha) (key buf : List Nat) :
    Option (List Nat) × List Nat :=
  if buf.length < 4 then (none, buf)
  else
    match restore_wg ch key buf with
    | Except.error b => (none, b)
    | Except.ok (_, m) => (some m, m)

/-- The byte offsets (relative to the start of the UDP payload, possibly
negative) that the decode path reads from packet memory, in program order:
the 8 chacha8 seed bytes at `buf + len - 8`, byte 0 (unmask of the padding
length), then — only when the length check passes — the `len - r` shifted
bytes, the 16 header bytes un-XORed in place, and the type byte read by
`restore_mac2`. -/
def decodeReads (ch : Chacha) (key buf : List Nat) : List Int :=
  let len := buf.length
  if len < 4 then []
  else
    let seedReads := (List.range 8).map
      (fun (i : Nat) => (len : Int) - 8 + (i : Int))
    let prn := ch (lastBytes 8 buf) key
    let r := Nat.xor (buf.getD 0 0) (prn 16)
    if r + 32 > len then seedReads ++ [0]
    else
      seedReads ++ [0]
        ++ (List.range (len - r)).map (fun (i : Nat) => ((r + i : Nat) : Int))
        ++ (List.range 16).map (fun (i : Nat) => (i : Int)) ++ [0]

/-- Zero keystream, used to evaluate the transforms on concrete packets. -/
def wCh : Chacha := fun _ _ _ => 0

/-- Keystream whose byte 16 is 1 and all other bytes 0, used to exhibit the
in-place unmasking of byte 0 on the decode failure path. -/
def wChP : Chacha := fun _ _ i => if i = 16 then 1 else 0

/-- Constant random-block stream: every draw is a block of 32 bytes of
value 4, so the selector always picks padding length 4. -/
def wStream : Nat → List Nat := fun _ => List.replicate 32 4

/-- A 32-byte WireGuard data message (type 0x04). -/
def wData32 : List Nat := 4 :: List.replicate 31 9

/-- A 148-byte handshake initiation whose 16-byte mac2 tag is all zero. -/
def wInitZero : List Nat := 1 :: (List.replicate 131 5 ++ List.replicate 16 0)

/-- A 148-byte handshake initiation whose mac2 tag is zero in its first 4
bytes but nonzero in byte 4: the zero-detection heuristic of `obfs_mac2`
treats it as an all-zero tag. -/
def wInitBad : List Nat :=
  1 :: (List.replicate 131 5
    ++ (0 :: 0 :: 0 :: 0 :: 1 :: List.replicate 11 0))

/-- A 148-byte handshake initiation whose mac2 tag is entirely nonzero. -/
def wInitNZ : List Nat := 1 :: (List.replicate 131 5 ++ List.replicate 16 9)

/-- All-zero indeterminate memory, used to evaluate the encode path at
concrete values of the uninitialized state. -/
def wJunk : Nat → Nat := fun _ => 0

theorem length_writeAt (buf src : List Nat) (off : Nat) :
    (writeAt buf off src).length = buf.length := by
  simp only [writeAt, List.length_append, List.length_take, List.length_drop]
  omega

theorem writeAt_append (A B src : List Nat) (h : src.length ≤ B.length) :
    writeAt (A ++ B) A.length src = A ++ src ++ B.drop src.length := by
  simp only [writeAt, List.take_left, List.length_append]
  rw [List.take_of_length_le (by omega), List.drop_append src.length]

theorem writeAt_zero_cons (a x : Nat) (l : List Nat) :
    writeAt (a :: l) 0 [x] = x :: l := by
  simp [writeAt]

theorem getD_range_map (f : Nat → Nat) {n i : Nat} (h : i < n) :
    ((List.range n).map f).getD i 0 = f i := by
  rw [List.getD_eq_getElem _ _ (by simpa using h)]
  simp

theorem xorCancel (a b : Nat) : Nat.xor (Nat.xor a b) b = a := by
  have hx : (a ^^^ b) ^^^ b = a := by
    rw [Nat.xor_assoc, Nat.xor_self, Nat.xor_zero]
  exact hx

theorem map_getD_range (l : List Nat) {n : Nat} (h : n ≤ l.length) :
    (List.range n).map (fun i => l.getD i 0) = l.take n := by
  apply List.ext_getElem (by simp; omega)
  intro i h1 h2
  have hi : i < n := by simpa using h1
  have hil : i < l.length := by omega
  simp only [List.getElem_map, List.getElem_range, List.getElem_take]
  exact List.getD_eq_getElem l 0 hil

theorem mask16_eq (prn : Nat → Nat) (buf : List Nat) (h : 16 ≤ buf.length) :
    mask16 prn buf
      = (List.range 16).map (fun i => Nat.xor (buf.getD i 0) (prn i))
        ++ buf.drop 16 := by
  have hb : buf = [] ++ buf := rfl
  rw [mask16]
  conv_lhs => rw [hb]
  rw [show (0 : Nat) = ([] : List Nat).length from rfl,
    writeAt_append _ _ _ (by simpa using h)]
  simp

theorem length_mask16 (prn : Nat → Nat) (buf : List Nat) :
    (mask16 prn buf).length = buf.length := length_writeAt _ _ _

theorem mask16_mask16 (prn : Nat → Nat) (buf : List Nat) (h : 16 ≤ buf.length) :
    mask16 prn (mask16 prn buf) = buf := by
  set M := mask16 prn buf with hM
  have hlen : M.length = buf.length := length_mask16 prn buf
  have hMeq : M
      = (List.range 16).map (fun i => Nat.xor (buf.getD i 0) (prn i))
        ++ buf.drop 16 := mask16_eq prn buf h
  rw [mask16_eq prn M (by omega)]
  have hgetD : ∀ i < 16, M.getD i 0 = Nat.xor (buf.getD i 0) (prn i) := by
    intro i hi
    rw [hMeq, List.getD_append _ _ _ _ (by simp; omega)]
    exact getD_range_map _ hi
  have h1 : (List.range 16).map (fun i => Nat.xor (M.getD i 0) (prn i))
      = (List.range 16).map (fun i => buf.getD i 0) := by
    apply List.map_congr_left
    intro i hi
    simp only [List.mem_range] at hi
    rw [hgetD i hi]
    exact xorCancel _ _
  have h2 : M.drop 16 = buf.drop 16 := by
    rw [hMeq, List.drop_append_of_le_length (by simp)]
    simp
  rw [h1, h2, map_getD_range buf h, List.take_append_drop]

theorem lastBytes_append (n : Nat) (A B : List Nat) (h : n ≤ B.length) :
    lastBytes n (A ++ B) = lastBytes n B := by
  simp only [lastBytes, List.length_append]
  rw [show A.length + B.length - n = A.length + (B.length - n) by omega,
    List.drop_append]

theorem mask16_drop (prn : Nat → Nat) (buf : List Nat) {n : Nat}
    (h16 : 16 ≤ buf.length) (hn : 16 ≤ n) :
    (mask16 prn buf).drop n = buf.drop n := by
  rw [mask16_eq prn buf h16]
  rw [List.drop_append_eq_append_drop]
  have hlen : ((List.range 16).map
      (fun i => Nat.xor (buf.getD i 0) (prn i))).length = 16 := by simp
  rw [List.drop_of_length_le (by omega), hlen]
  simp only [List.nil_append, List.drop_drop]
  congr 1
  omega

theorem lastBytes_mask16 (prn : Nat → Nat) (buf : List Nat)
    (h : 24 ≤ buf.length) :
    lastBytes 8 (mask16 prn buf) = lastBytes 8 buf := by
  unfold lastBytes
  rw [length_mask16, mask16_drop prn buf (by omega) (by omega)]

theorem writeAt_mid (a : Nat) (rest ks : List Nat) (k : Nat)
    (hlen : k + 16 ≤ rest.length) (hks : ks.length = 16) :
    writeAt (a :: rest) (k + 1) ks = a :: (rest.take k ++ ks ++ rest.drop (k + 16)) := by
  have hsplit : a :: rest = (a :: rest.take k) ++ rest.drop k :=
    by simp [List.take_append_drop]
  have hplen : (a :: rest.take k).length = k + 1 := by
    simp only [List.length_cons, List.length_take]
    omega
  rw [hsplit, show k + 1 = (a :: rest.take k).length from hplen.symm,
    writeAt_append _ _ _ (by simp [hks]; omega), hks]
  simp [List.drop_drop]

theorem length_obfs_mac2 (ch : Chacha) (key buf : List Nat) :
    (obfs_mac2 ch key buf).length = buf.length := by
  unfold obfs_mac2
  dsimp only
  repeat' split
  all_goals simp [length_writeAt]

theorem length_restore_mac2 (buf : List Nat) :
    (restore_mac2 buf).length = buf.length := by
  unfold restore_mac2
  dsimp only
  rw [length_writeAt]
  repeat' split
  all_goals simp [length_writeAt]

theorem obfs_mac2_init_eq (ch : Chacha) (key : List Nat) (rest : List Nat)
    (hre : rest.length = 147)
    (hz : ((rest.drop 131).take 4).all (fun b => b = 0) = true) :
    obfs_mac2 ch key (1 :: rest)
      = 17 :: (rest.take 131
          ++ (List.range 16).map (ch ((rest.drop 7).take 8) key)) := by
  unfold obfs_mac2
  dsimp only
  simp only [List.getD_cons_zero]
  rw [if_pos (Or.inl ⟨by trivial, by simp [hre]⟩)]
  simp only [if_true]
  rw [show macs2OffsetInit = 131 + 1 from rfl]
  rw [List.drop_succ_cons]
  rw [if_pos hz]
  rw [show (8 : Nat) = 7 + 1 from rfl, List.drop_succ_cons]
  rw [writeAt_mid _ _ _ _ (by omega) (by simp)]
  rw [writeAt_zero_cons]
  have hnil : rest.drop (131 + 16) = [] := List.drop_of_length_le (by omega)
  rw [hnil]
  rw [show Nat.lor 1 16 = 17 by decide]
  simp

theorem obfs_mac2_resp_eq (ch : Chacha) (key : List Nat) (rest : List Nat)
    (hre : rest.length = 91)
    (hz : ((rest.drop 75).take 4).all (fun b => b = 0) = true) :
    obfs_mac2 ch key (2 :: rest)
      = 18 :: (rest.take 75
          ++ (List.range 16).map (ch ((rest.drop 7).take 8) key)) := by
  unfold obfs_mac2
  dsimp only
  simp only [List.getD_cons_zero]
  rw [if_pos (Or.inr ⟨by trivial, by simp [hre]⟩)]
  simp only [show (if (2 : Nat) = 1 then macs2OffsetInit else macs2OffsetResp)
    = 75 + 1 from rfl]
  rw [List.drop_succ_cons]
  rw [if_pos hz]
  rw [show (8 : Nat) = 7 + 1 from rfl, List.drop_succ_cons]
  rw [writeAt_mid _ _ _ _ (by omega) (by simp)]
  rw [writeAt_zero_cons]
  have hnil : rest.drop (75 + 16) = [] := List.drop_of_length_le (by omega)
  rw [hnil]
  rw [show Nat.lor 2 16 = 18 by decide]
  simp

theorem obfs_mac2_not_hs (ch : Chacha) (key buf : List Nat)
    (h : ¬ ((buf.getD 0 0 = 1 ∧ buf.length = 148)
      ∨ (buf.getD 0 0 = 2 ∧ buf.length = 92))) :
    obfs_mac2 ch key buf = buf := by
  unfold obfs_mac2
  dsimp only
  rw [if_neg h]

theorem obfs_mac2_nonzero (ch : Chacha) (key buf : List Nat)
    (hz : ¬ (((buf.drop (if buf.getD 0 0 = 1 then macs2OffsetInit
      else macs2OffsetResp)).take 4).all (fun b => b = 0) = true)) :
    obfs_mac2 ch key buf = buf := by
  unfold obfs_mac2
  dsimp only
  rw [if_neg hz]
  split <;> rfl

theorem restore_mac2_id (b : Nat) (rest : List Nat) (h17 : b ≠ 17)
    (h18 : b ≠ 18) (hland : Nat.land b 15 = b) :
    restore_mac2 (b :: rest) = b :: rest := by
  unfold restore_mac2
  dsimp only
  rw [if_neg (by simpa using h17), if_neg (by simpa using h18)]
  rw [show (b :: rest).getD 0 0 = b from rfl, hland, writeAt_zero_cons]

theorem restore_mac2_init (rest ks : List Nat) (hre : rest.length = 147)
    (hks : ks.length = 16) (hz : rest.drop 131 = List.replicate 16 0) :
    restore_mac2 (17 :: (rest.take 131 ++ ks)) = 1 :: rest := by
  unfold restore_mac2
  dsimp only
  rw [if_pos (show ((17 : Nat) :: (rest.take 131 ++ ks)).getD 0 0 = 17
    from rfl)]
  rw [show macs2OffsetInit = 131 + 1 from rfl]
  rw [writeAt_mid _ _ _ _ (by simp [hks]; omega) (by simp)]
  rw [List.take_append_of_le_length (by simp; omega), List.take_take]
  rw [List.drop_of_length_le (by simp [hks])]
  rw [show ((17 : Nat)
      :: (rest.take (min 131 131) ++ List.replicate 16 0 ++ [])).getD 0 0 = 17
    from rfl]
  rw [show Nat.land 17 15 = 1 by decide, writeAt_zero_cons]
  rw [← hz]
  simp [List.take_append_drop]

theorem restore_mac2_resp (rest ks : List Nat) (hre : rest.length = 91)
    (hks : ks.length = 16) (hz : rest.drop 75 = List.replicate 16 0) :
    restore_mac2 (18 :: (rest.take 75 ++ ks)) = 2 :: rest := by
  unfold restore_mac2
  dsimp only
  rw [if_neg (by simp), if_pos (show ((18 : Nat)
    :: (rest.take 75 ++ ks)).getD 0 0 = 18 from rfl)]
  rw [show macs2OffsetResp = 75 + 1 from rfl]
  rw [writeAt_mid _ _ _ _ (by simp [hks]; omega) (by simp)]
  rw [List.take_append_of_le_length (by simp; omega), List.take_take]
  rw [List.drop_of_length_le (by simp [hks])]
  rw [show ((18 : Nat)
      :: (rest.take (min 75 75) ++ List.replicate 16 0 ++ [])).getD 0 0 = 18
    from rfl]
  rw [show Nat.land 18 15 = 2 by decide, writeAt_zero_cons]
  rw [← hz]
  simp [List.take_append_drop]

theorem scanBlock_pos (blk : List Nat) (mn mx : Nat)
    (h : 0 < scanBlock blk mn mx) :
    mn ≤ scanBlock blk mn mx ∧ scanBlock blk mn mx ≤ mx
      ∧ scanBlock blk mn mx ∈ blk := by
  unfold scanBlock at *
  cases hfind : blk.find? (fun b => decide (mn ≤ b ∧ b ≤ mx)) with
  | none => rw [hfind] at h; simp at h
  | some a =>
    have hp := List.find?_some hfind
    have hm := List.mem_of_find?_eq_some hfind
    simp only [Option.getD_some] at h ⊢
    simp only [decide_eq_true_eq] at hp
    exact ⟨hp.1, hp.2, hm⟩

theorem scanBlock_hit (blk : List Nat) (mn mx : Nat) (hmn : 1 ≤ mn)
    (hhit : ∃ b ∈ blk, mn ≤ b ∧ b ≤ mx) : 0 < scanBlock blk mn mx := by
  unfold scanBlock
  cases hfind : blk.find? (fun b => decide (mn ≤ b ∧ b ≤ mx)) with
  | none =>
    exfalso
    have : (blk.find? (fun b => decide (mn ≤ b ∧ b ≤ mx))).isSome := by
      rw [List.find?_isSome]
      obtain ⟨b, hb, hb2⟩ := hhit
      exact ⟨b, hb, by simpa using hb2⟩
    rw [hfind] at this
    simp at this
  | some a =>
    have hp := List.find?_some hfind
    simp only [decide_eq_true_eq] at hp
    simp only [Option.getD_some]
    omega

theorem gri_sound (stream : Nat → List Nat) (mn mx : Nat) :
    ∀ fuel j r blk, get_random_insert stream mn mx fuel j = some (r, blk) →
      mn ≤ r ∧ r ≤ mx ∧ 0 < r ∧ ∃ i, blk = stream i := by
  intro fuel
  induction fuel with
  | zero => intro j r blk h; simp [get_random_insert] at h
  | succ fuel ih =>
    intro j r blk h
    unfold get_random_insert at h
    dsimp only at h
    split at h
    · obtain ⟨h1, h2⟩ := Prod.mk.injEq .. ▸ Option.some.injEq .. ▸ h
      have hs := scanBlock_pos (stream j) mn mx (by omega)
      subst h1
      exact ⟨hs.1, hs.2.1, by omega, j, h2.symm⟩
    · exact ih (j + 1) r blk h

theorem gri_terminates (stream : Nat → List Nat) (mn mx : Nat)
    (hmn : 1 ≤ mn) :
    ∀ fuel j0 j, j < fuel → (∃ b ∈ stream (j0 + j), mn ≤ b ∧ b ≤ mx) →
      ∃ r blk, get_random_insert stream mn mx fuel j0 = some (r, blk) := by
  intro fuel
  induction fuel with
  | zero => intro j0 j h; omega
  | succ fuel ih =>
    intro j0 j hj hhit
    unfold get_random_insert
    dsimp only
    split
    · exact ⟨_, _, rfl⟩
    · rename_i hsc
      rcases Nat.eq_zero_or_pos j with hj0 | hjpos
      · exfalso
        subst hj0
        simp only [Nat.add_zero] at hhit
        exact hsc (scanBlock_hit (stream j0) mn mx hmn hhit)
      · refine ih (j0 + 1) (j - 1) (by omega) ?_
        have : j0 + 1 + (j - 1) = j0 + j := by omega
        rw [this]
        exact hhit

theorem restore_wg_padded (ch : Chacha) (key pad M : List Nat) (r : Nat)
    (hpadlen : pad.length = r) (hr : 1 ≤ r) (hM : 32 ≤ M.length)
    (hpad0 : pad.getD 0 0 = Nat.xor r (ch (lastBytes 8 M) key 16)) :
    restore_wg ch key (pad ++ M)
      = Except.ok (r, restore_mac2 (mask16 (ch (lastBytes 8 M) key) M)) := by
  have htail : lastBytes 8 (pad ++ M) = lastBytes 8 M :=
    lastBytes_append 8 _ _ (by omega)
  have hstrip : (writeAt (pad ++ M) 0 [r]).drop r = M := by
    obtain ⟨p0, ptl, rfl⟩ : ∃ p0 ptl, pad = p0 :: ptl := by
      cases pad with
      | nil => simp at hpadlen; omega
      | cons p0 ptl => exact ⟨p0, ptl, rfl⟩
    rw [List.cons_append, writeAt_zero_cons]
    obtain ⟨k, rfl⟩ : ∃ k, r = k + 1 := ⟨r - 1, by omega⟩
    rw [List.drop_succ_cons]
    have hptl : ptl.length = k := by simp at hpadlen; omega
    rw [← hptl, List.drop_left]
  unfold restore_wg
  dsimp only
  rw [htail]
  rw [List.getD_append _ _ _ _ (by omega), hpad0, xorCancel]
  rw [if_neg (by simp only [List.length_append, gt_iff_lt, not_lt]; omega)]
  rw [hstrip]

theorem restore_obfs_mac2 (ch : Chacha) (key m : List Nat)
    (hkind : m.getD 0 0 = 1 ∧ m.length = 148
      ∨ m.getD 0 0 = 2 ∧ m.length = 92
      ∨ m.getD 0 0 = 3 ∨ m.getD 0 0 = 4)
    (hmac2 : ((m.drop (m.length - 16)).take 4).all (fun b => b = 0) = true →
      m.drop (m.length - 16) = List.replicate 16 0)
    (hne : m ≠ []) :
    restore_mac2 (obfs_mac2 ch key m) = m := by
  obtain ⟨b, rest, rfl⟩ := List.exists_cons_of_ne_nil hne
  have hb : (b :: rest).getD 0 0 = b := rfl
  rcases hkind with ⟨hb1, hlen⟩ | ⟨hb2, hlen⟩ | hb3 | hb4
  · -- handshake initiation
    rw [hb] at hb1
    subst hb1
    have hre : rest.length = 147 := by simpa using hlen
    have hdrop : (1 :: rest).drop ((1 :: rest).length - 16) = rest.drop 131 := by
      rw [show (1 :: rest).length - 16 = 131 + 1 by simp [hre]]
      exact List.drop_succ_cons
    by_cases hz : ((rest.drop 131).take 4).all (fun b => b = 0) = true
    · have hfull : rest.drop 131 = List.replicate 16 0 := by
        rw [← hdrop]
        exact hmac2 (by rw [hdrop]; exact hz)
      rw [obfs_mac2_init_eq ch key rest hre hz]
      exact restore_mac2_init rest _ hre (by simp) hfull
    · rw [obfs_mac2_nonzero ch key _ (by
        rw [hb, if_pos rfl, show macs2OffsetInit = 131 + 1 from rfl,
          List.drop_succ_cons]
        exact hz)]
      exact restore_mac2_id 1 rest (by omega) (by omega) (by decide)
  · -- handshake response
    rw [hb] at hb2
    subst hb2
    have hre : rest.length = 91 := by simpa using hlen
    have hdrop : (2 :: rest).drop ((2 :: rest).length - 16) = rest.drop 75 := by
      rw [show (2 :: rest).length - 16 = 75 + 1 by simp [hre]]
      exact List.drop_succ_cons
    by_cases hz : ((rest.drop 75).take 4).all (fun b => b = 0) = true
    · have hfull : rest.drop 75 = List.replicate 16 0 := by
        rw [← hdrop]
        exact hmac2 (by rw [hdrop]; exact hz)
      rw [obfs_mac2_resp_eq ch key rest hre hz]
      exact restore_mac2_resp rest _ hre (by simp) hfull
    · rw [obfs_mac2_nonzero ch key _ (by
        rw [hb, if_neg (by omega), show macs2OffsetResp = 75 + 1 from rfl,
          List.drop_succ_cons]
        exact hz)]
      exact restore_mac2_id 2 rest (by omega) (by omega) (by decide)
  · rw [hb] at hb3
    subst hb3
    rw [obfs_mac2_not_hs ch key _ (by rw [hb]; omega)]
    exact restore_mac2_id 3 rest (by omega) (by omega) (by decide)
  · rw [hb] at hb4
    subst hb4
    rw [obfs_mac2_not_hs ch key _ (by rw [hb]; omega)]
    exact restore_mac2_id 4 rest (by omega) (by omega) (by decide)

theorem widthPolicy_le (len : Nat) : widthPolicy len ≤ 32 := by
  unfold widthPolicy
  split <;> omega

/-- The transform the source intends: had `ob.rnd_len` been assigned the
selected padding length (the source never assigns it), the in-memory result
of `obfs_wg` would coincide with the transmitted datagram, and decoding it
recovers the original message, provided the message is of a recognized kind
and supported length and its mac2 tag is entirely zero whenever its first 4
bytes are zero (the zero-tag heuristic of `obfs_mac2` inspects only the first
u32, so a tag 0,0,0,0,x,... with x nonzero would still be destroyed). -/
theorem roundtrip_of_assigned_padding (ch : Chacha) (key blk m : List Nat)
    (r : Nat) (hlen : 32 ≤ m.length)
    (hkind : m.getD 0 0 = 1 ∧ m.length = 148
      ∨ m.getD 0 0 = 2 ∧ m.length = 92
      ∨ m.getD 0 0 = 3 ∨ m.getD 0 0 = 4)
    (hmac2 : ((m.drop (m.length - 16)).take 4).all (fun b => b = 0) = true →
      m.drop (m.length - 16) = List.replicate 16 0)
    (hrpos : 0 < r) (hr32 : r ≤ 32) (hblklen : blk.length = 32) :
    xt_unobfs ch key (obfs_wg ch key blk r m) = (some m, m) := by
  have hm1len : (obfs_mac2 ch key m).length = m.length :=
    length_obfs_mac2 ch key m
  have htail8 :
      lastBytes 8 (mask16 (ch (lastBytes 8 (obfs_mac2 ch key m)) key)
        (obfs_mac2 ch key m))
      = lastBytes 8 (obfs_mac2 ch key m) :=
    lastBytes_mask16 _ _ (by omega)
  have hMlen :
      32 ≤ (mask16 (ch (lastBytes 8 (obfs_mac2 ch key m)) key)
        (obfs_mac2 ch key m)).length := by
    rw [length_mask16]
    omega
  have hobfs : obfs_wg ch key blk r m
      = ((Nat.xor r (ch (lastBytes 8 (obfs_mac2 ch key m)) key 16)
          :: blk.drop 1).take r)
        ++ mask16 (ch (lastBytes 8 (obfs_mac2 ch key m)) key)
          (obfs_mac2 ch key m) := rfl
  rw [hobfs]
  have hpadlen : ((Nat.xor r (ch (lastBytes 8 (obfs_mac2 ch key m)) key 16)
      :: blk.drop 1).take r).length = r := by
    simp only [List.length_take, List.length_cons, List.length_drop,
      hblklen]
    omega
  have hpad0 : ((Nat.xor r (ch (lastBytes 8 (obfs_mac2 ch key m)) key 16)
        :: blk.drop 1).take r).getD 0 0
      = Nat.xor r (ch (lastBytes 8 (mask16
          (ch (lastBytes 8 (obfs_mac2 ch key m)) key)
          (obfs_mac2 ch key m))) key 16) := by
    rw [htail8]
    obtain ⟨k, rfl⟩ : ∃ k, r = k + 1 := ⟨r - 1, by omega⟩
    rw [List.take_succ_cons]
    rfl
  have hrw2 := restore_wg_padded ch key _ _ r hpadlen (by omega)
    hMlen hpad0
  have hrest : restore_mac2 (mask16 (ch (lastBytes 8 (mask16
        (ch (lastBytes 8 (obfs_mac2 ch key m)) key)
        (obfs_mac2 ch key m))) key)
      (mask16 (ch (lastBytes 8 (obfs_mac2 ch key m)) key)
        (obfs_mac2 ch key m))) = m := by
    rw [htail8, mask16_mask16 _ _ (by omega)]
    exact restore_obfs_mac2 ch key m hkind hmac2
      (by intro hnil; rw [hnil] at hlen; simp at hlen)
  rw [hrest] at hrw2
  unfold xt_unobfs
  rw [if_neg (by
    simp only [List.length_append, length_mask16, hpadlen, not_lt]
    omega)]
  rw [hrw2]

theorem xt_obfs_some (ch : Chacha) (key : List Nat) (stream : Nat → List Nat)
    (fuel g : Nat) (junk : Nat → Nat) (buf d : List Nat)
    (henc : xt_obfs ch key stream fuel g junk buf = some d) :
    ∃ r blk i, 4 ≤ r ∧ r ≤ widthPolicy buf.length ∧ blk = stream i
      ∧ d = ((obfs_wg ch key (blk ++ (List.range 256).map junk) g buf)
          ++ (List.range r).map (fun i => junk (256 + i))).take
            (buf.length + r) := by
  unfold xt_obfs at henc
  by_cases hdrop : random_drop_wg_keepalive ch key buf = true
  · rw [if_pos hdrop] at henc
    exact absurd henc (by simp)
  · rw [if_neg hdrop] at henc
    cases hg : get_random_insert stream 4 (widthPolicy buf.length) fuel 0 with
    | none =>
      rw [hg] at henc
      exact absurd henc (by simp)
    | some rb =>
      obtain ⟨r, blk⟩ := rb
      rw [hg] at henc
      dsimp only at henc
      obtain ⟨h1, h2, _, i, hi⟩ := gri_sound stream 4 _ fuel 0 r blk hg
      refine ⟨r, blk, i, h1, h2, hi, ?_⟩
      injection henc with h
      exact h.symm

theorem length_obfs_wg (ch : Chacha) (key blk buf : List Nat) (g : Nat)
    (hblk : 1 ≤ blk.length) :
    (obfs_wg ch key blk g buf).length = min g blk.length + buf.length := by
  unfold obfs_wg
  dsimp only
  rw [List.length_append, length_mask16, length_obfs_mac2]
  simp only [List.length_take, List.length_cons, List.length_drop]
  omega

theorem getD_mask16 (prn : Nat → Nat) (buf : List Nat) (i : Nat)
    (hi : i < 16) (hlen : 16 ≤ buf.length) :
    (mask16 prn buf).getD i 0 = Nat.xor (buf.getD i 0) (prn i) := by
  rw [mask16_eq prn buf hlen]
  rw [List.getD_append _ _ _ _ (by simp; omega)]
  exact getD_range_map _ hi

theorem restore_wg_fail (ch : Chacha) (key d : List Nat)
    (hfail : d.length < Nat.xor (d.getD 0 0) (ch (lastBytes 8 d) key 16) + 32) :
    restore_wg ch key d
      = Except.error (writeAt d 0
          [Nat.xor (d.getD 0 0) (ch (lastBytes 8 d) key 16)]) := by
  unfold restore_wg
  dsimp only
  rw [if_pos (by omega)]

theorem restore_wg_ok (ch : Chacha) (key d : List Nat)
    (hok : Nat.xor (d.getD 0 0) (ch (lastBytes 8 d) key 16) + 32 ≤ d.length) :
    restore_wg ch key d
      = Except.ok (Nat.xor (d.getD 0 0) (ch (lastBytes 8 d) key 16),
          restore_mac2 (mask16 (ch (lastBytes 8 d) key)
            ((writeAt d 0 [Nat.xor (d.getD 0 0) (ch (lastBytes 8 d) key 16)]).drop
              (Nat.xor (d.getD 0 0) (ch (lastBytes 8 d) key 16))))) := by
  unfold restore_wg
  dsimp only
  rw [if_neg (by omega)]

/-- Claim C2 (amended): neither transform passes short or unrecognized
buffers through unchanged.  Encode transforms every buffer it is given:
whenever it produces output — for every value of the uninitialized padding
state — the output is at least 4 bytes longer than the input and never equal
to it, regardless of length or first-byte tag, and decode never returns a
buffer shorter than 32 bytes unchanged: it signals NF_DROP for every such
buffer. -/
theorem short_or_unknown_not_passthrough (ch : Chacha) (key : List Nat)
    (stream : Nat → List Nat) (fuel g : Nat) (junk : Nat → Nat)
    (buf d : List Nat)
    (henc : xt_obfs ch key stream fuel g junk buf = some d) :
    (buf.length + 4 ≤ d.length ∧ d ≠ buf) ∧
      (buf.length < 32 → (xt_unobfs ch key buf).fst = none) := by
  obtain ⟨r, blk, i, hr4, hrw, hblk, hd⟩ :=
    xt_obfs_some ch key stream fuel g junk buf d henc
  have hlen : d.length = buf.length + r := by
    rw [hd, List.length_take, List.length_append,
      length_obfs_wg ch key _ buf g (by simp)]
    simp only [List.length_map, List.length_range, List.length_append]
    omega
  refine ⟨⟨by omega, ?_⟩, ?_⟩
  · intro hEq
    rw [hEq] at hlen
    omega
  · intro h32
    unfold xt_unobfs
    by_cases h4 : buf.length < 4
    · rw [if_pos h4]
    · rw [if_neg h4]
      rw [restore_wg_fail ch key buf (by omega)]

/-- Claim C3 (amended): decode fails (NF_DROP) exactly when the datagram
length is below 4 or the recovered padding length plus 32 exceeds the
datagram length.  On the short-datagram path the buffer is untouched, but on
the length-check path the failure leaves byte 0 unmasked in place: the
dropped buffer differs from the input in exactly its first byte, refuting the
byte-identical part of the claim (see the counterexample). -/
theorem decode_failure_conditions (ch : Chacha) (key d : List Nat) :
    ((xt_unobfs ch key d).fst = none ↔
      d.length < 4 ∨ d.length
        < Nat.xor (d.getD 0 0) (ch (lastBytes 8 d) key 16) + 32) ∧
    (d.length < 4 → xt_unobfs ch key d = (none, d)) ∧
    (4 ≤ d.length →
      d.length < Nat.xor (d.getD 0 0) (ch (lastBytes 8 d) key 16) + 32 →
      xt_unobfs ch key d = (none,
        Nat.xor (d.getD 0 0) (ch (lastBytes 8 d) key 16) :: d.drop 1)) := by
  have hmut : 4 ≤ d.length →
      writeAt d 0 [Nat.xor (d.getD 0 0) (ch (lastBytes 8 d) key 16)]
        = Nat.xor (d.getD 0 0) (ch (lastBytes 8 d) key 16) :: d.drop 1 := by
    intro h4
    have hne : d ≠ [] := by
      intro h
      rw [h] at h4
      simp at h4
    obtain ⟨b, rest, rfl⟩ := List.exists_cons_of_ne_nil hne
    rw [writeAt_zero_cons]
    rfl
  refine ⟨⟨?_, ?_⟩, ?_, ?_⟩
  · intro h
    by_contra hno
    push_neg at hno
    obtain ⟨h4, hok⟩ := hno
    unfold xt_unobfs at h
    rw [if_neg (by omega), restore_wg_ok ch key d (by omega)] at h
    exact absurd h (by simp)
  · rintro (h4 | hfail)
    · unfold xt_unobfs
      rw [if_pos h4]
    · by_cases h4 : d.length < 4
      · unfold xt_unobfs
        rw [if_pos h4]
      · unfold xt_unobfs
        rw [if_neg h4, restore_wg_fail ch key d (by omega)]
  · intro h4
    unfold xt_unobfs
    rw [if_pos h4]
  · intro h4 hfail
    unfold xt_unobfs
    rw [if_neg (by omega), restore_wg_fail ch key d (by omega), hmut h4]

/-- Claim C5: whenever encode produces a datagram, its length exceeds the
original by exactly the selected padding length r, with 4 ≤ r ≤ 32 always and
r ≤ 8 whenever the original message is longer than 200 bytes. -/
theorem encode_length_bound (ch : Chacha) (key : List Nat)
    (stream : Nat → List Nat) (fuel g : Nat) (junk : Nat → Nat)
    (buf d : List Nat)
    (henc : xt_obfs ch key stream fuel g junk buf = some d) :
    ∃ r, d.length = buf.length + r ∧ 4 ≤ r ∧ r ≤ 32
      ∧ (200 < buf.length → r ≤ 8) := by
  obtain ⟨r, blk, i, hr4, hrw, hblk, hd⟩ :=
    xt_obfs_some ch key stream fuel g junk buf d henc
  have hr32 : r ≤ 32 := le_trans hrw (widthPolicy_le buf.length)
  refine ⟨r, ?_, hr4, hr32, ?_⟩
  · rw [hd, List.length_take, List.length_append,
      length_obfs_wg ch key _ buf g (by simp)]
    simp only [List.length_map, List.length_range, List.length_append]
    omega
  · intro h200
    have hw : widthPolicy buf.length = 8 := by
      unfold widthPolicy
      rw [if_pos h200]
    omega

/-- Claim C6: the keepalive policy flags a buffer for dropping exactly when
its type byte is 0x04, its length is exactly 32, and byte 0 of the keystream
derived from its last 8 bytes (offset 24 onward) exceeds 50; for every other
type/length combination it returns false. -/
theorem keepalive_drop_iff (ch : Chacha) (key buf : List Nat) :
    random_drop_wg_keepalive ch key buf = true ↔
      (buf.getD 0 0 = 4 ∧ buf.length = 32 ∧ 50 < ch (buf.drop 24) key 0) := by
  unfold random_drop_wg_keepalive
  by_cases h : buf.getD 0 0 = 4 ∧ buf.length = 32
  · rw [if_pos h]
    have hlb : lastBytes 8 buf = buf.drop 24 := by
      unfold lastBytes
      rw [h.2]
    rw [hlb, decide_eq_true_eq]
    constructor
    · intro hc
      exact ⟨h.1, h.2, hc⟩
    · rintro ⟨_, _, hc⟩
      exact hc
  · rw [if_neg h]
    simp only [Bool.false_eq_true, false_iff]
    rintro ⟨a, b, _⟩
    exact h ⟨a, b⟩

theorem obfs_mac2_idem (ch : Chacha) (key buf : List Nat) :
    obfs_mac2 ch key (obfs_mac2 ch key buf) = obfs_mac2 ch key buf := by
  by_cases h : (buf.getD 0 0 = 1 ∧ buf.length = 148)
    ∨ (buf.getD 0 0 = 2 ∧ buf.length = 92)
  · rcases h with ⟨h1, hlen⟩ | ⟨h2, hlen⟩
    · have hne : buf ≠ [] := by
        intro hnil
        rw [hnil] at hlen
        simp at hlen
      obtain ⟨b, rest, rfl⟩ := List.exists_cons_of_ne_nil hne
      have hb : b = 1 := by simpa using h1
      subst hb
      have hre : rest.length = 147 := by simpa using hlen
      by_cases hz : ((rest.drop 131).take 4).all (fun b => b = 0) = true
      · rw [obfs_mac2_init_eq ch key rest hre hz]
        apply obfs_mac2_not_hs
        rintro (⟨hx, _⟩ | ⟨hx, _⟩) <;> simp at hx
      · have hnz : obfs_mac2 ch key (1 :: rest) = 1 :: rest := by
          apply obfs_mac2_nonzero
          rw [show ((1 : Nat) :: rest).getD 0 0 = 1 from rfl, if_pos rfl,
            show macs2OffsetInit = 131 + 1 from rfl, List.drop_succ_cons]
          exact hz
        rw [hnz, hnz]
    · have hne : buf ≠ [] := by
        intro hnil
        rw [hnil] at hlen
        simp at hlen
      obtain ⟨b, rest, rfl⟩ := List.exists_cons_of_ne_nil hne
      have hb : b = 2 := by simpa using h2
      subst hb
      have hre : rest.length = 91 := by simpa using hlen
      by_cases hz : ((rest.drop 75).take 4).all (fun b => b = 0) = true
      · rw [obfs_mac2_resp_eq ch key rest hre hz]
        apply obfs_mac2_not_hs
        rintro (⟨hx, _⟩ | ⟨hx, _⟩) <;> simp at hx
      · have hnz : obfs_mac2 ch key (2 :: rest) = 2 :: rest := by
          apply obfs_mac2_nonzero
          rw [show ((2 : Nat) :: rest).getD 0 0 = 2 from rfl,
            if_neg (by omega),
            show macs2OffsetResp = 75 + 1 from rfl, List.drop_succ_cons]
          exact hz
        rw [hnz, hnz]
  · rw [obfs_mac2_not_hs ch key buf h, obfs_mac2_not_hs ch key buf h]

/-- Claim C7: on a handshake message whose tag field has a nonzero first
u32, tag randomization is a no-op, and for every buffer applying `obfs_mac2`
twice equals applying it once. -/
theorem mac2_randomize_idempotent (ch : Chacha) (key buf : List Nat) :
    ((buf.getD 0 0 = 1 ∧ buf.length = 148
        ∨ buf.getD 0 0 = 2 ∧ buf.length = 92) →
      ¬ (((buf.drop (buf.length - 16)).take 4).all (fun b => b = 0) = true) →
      obfs_mac2 ch key buf = buf) ∧
    obfs_mac2 ch key (obfs_mac2 ch key buf) = obfs_mac2 ch key buf := by
  constructor
  · intro hkind hnz
    apply obfs_mac2_nonzero
    rcases hkind with ⟨h1, hlen⟩ | ⟨h2, hlen⟩
    · rw [if_pos h1, show macs2OffsetInit = 132 from rfl]
      rw [show buf.length - 16 = 132 by omega] at hnz
      exact hnz
    · rw [if_neg (by rw [h2]; omega), show macs2OffsetResp = 76 from rfl]
      rw [show buf.length - 16 = 76 by omega] at hnz
      exact hnz
  · exact obfs_mac2_idem ch key buf

/-- The frame effect the source intends for non-handshake messages: with the
padding length argument `r` (in the module, the value of `ob->rnd_len`), the
in-memory result of `obfs_wg` is an `r`-byte prefix, the 16 XOR-masked header
bytes, and the untouched remainder of the message.  The transmitted datagram
only has this shape when `r` equals the selected growth, which the source
never establishes. -/
theorem frame_effect_of_assigned_padding (ch : Chacha) (key blk buf : List Nat)
    (r : Nat) (ht : buf.getD 0 0 = 3 ∨ buf.getD 0 0 = 4)
    (hlen : 32 ≤ buf.length) (hr1 : 1 ≤ r) (hr32 : r ≤ 32)
    (hblk : blk.length = 32) :
    (obfs_wg ch key blk r buf).drop (r + 16) = buf.drop 16 ∧
    (∀ i, i < 16 → (obfs_wg ch key blk r buf).getD (r + i) 0
      = Nat.xor (buf.getD i 0) (ch (lastBytes 8 buf) key i)) ∧
    (obfs_wg ch key blk r buf).length = r + buf.length := by
  have hnoop : obfs_mac2 ch key buf = buf := by
    apply obfs_mac2_not_hs
    rintro (⟨hx, _⟩ | ⟨hx, _⟩) <;> rcases ht with h | h <;> omega
  have hobfs : obfs_wg ch key blk r buf
      = ((Nat.xor r (ch (lastBytes 8 buf) key 16) :: blk.drop 1).take r)
        ++ mask16 (ch (lastBytes 8 buf) key) buf := by
    unfold obfs_wg
    dsimp only
    rw [hnoop]
  have hpadlen : ((Nat.xor r (ch (lastBytes 8 buf) key 16)
      :: blk.drop 1).take r).length = r := by
    simp only [List.length_take, List.length_cons, List.length_drop, hblk]
    omega
  refine ⟨?_, ?_, ?_⟩
  · rw [hobfs, show r + 16
      = ((Nat.xor r (ch (lastBytes 8 buf) key 16)
          :: blk.drop 1).take r).length + 16 by rw [hpadlen]]
    rw [List.drop_append]
    exact mask16_drop _ _ (by omega) (by omega)
  · intro i hi
    rw [hobfs, List.getD_append_right _ _ _ _ (by rw [hpadlen]; omega)]
    rw [hpadlen, show r + i - r = i by omega]
    exact getD_mask16 _ _ i hi (by omega)
  · rw [hobfs]
    rw [List.length_append, length_mask16, hpadlen]

/-- Claim C9: with 1 ≤ min ≤ max ≤ 255, every value `get_random_insert`
returns lies in [min, max] and is never 0, and the redraw loop terminates
(succeeds for every fuel greater than j) whenever some drawn block j contains
a byte in range. -/
theorem selector_range_and_termination (stream : Nat → List Nat)
    (mn mx j : Nat) (hmn : 1 ≤ mn) (hmnmx : mn ≤ mx) (hmx : mx ≤ 255)
    (hhit : ∃ b ∈ stream j, mn ≤ b ∧ b ≤ mx) :
    (∀ fuel, j < fuel →
      ∃ r blk, get_random_insert stream mn mx fuel 0 = some (r, blk)) ∧
    (∀ fuel j0 r blk, get_random_insert stream mn mx fuel j0 = some (r, blk) →
      mn ≤ r ∧ r ≤ mx ∧ r ≠ 0) := by
  constructor
  · intro fuel hfuel
    refine gri_terminates stream mn mx hmn fuel 0 j hfuel ?_
    simpa using hhit
  · intro fuel j0 r blk hsome
    obtain ⟨h1, h2, h3, _⟩ := gri_sound stream mn mx fuel j0 r blk hsome
    exact ⟨h1, h2, by omega⟩

/-- Claim C10: decode validates only the upper bound of the recovered
padding length L: for byte-valued datagrams and keystreams, L is a byte
(0..255), decode succeeds exactly when L + 32 is at most the datagram length,
and on success it strips exactly L bytes — recovered lengths outside the
encoder's 4..32 range, including 0, are accepted when the size check
passes. -/
theorem decode_padding_length_validation (ch : Chacha) (key d : List Nat)
    (h4 : 4 ≤ d.length) (hbytes : ∀ b ∈ d, b < 256)
    (hch : ∀ s k i, ch s k i < 256) :
    Nat.xor (d.getD 0 0) (ch (lastBytes 8 d) key 16) < 256 ∧
    ((xt_unobfs ch key d).fst.isSome = true ↔
      Nat.xor (d.getD 0 0) (ch (lastBytes 8 d) key 16) + 32 ≤ d.length) ∧
    (∀ m, (xt_unobfs ch key d).fst = some m →
      m.length = d.length
        - Nat.xor (d.getD 0 0) (ch (lastBytes 8 d) key 16)) := by
  have hd0 : d.getD 0 0 < 256 := by
    have hne : d ≠ [] := by
      intro h
      rw [h] at h4
      simp at h4
    obtain ⟨b, rest, rfl⟩ := List.exists_cons_of_ne_nil hne
    exact hbytes b (by simp)
  have hL : Nat.xor (d.getD 0 0) (ch (lastBytes 8 d) key 16) < 256 := by
    have := Nat.xor_lt_two_pow (n := 8) hd0 (hch (lastBytes 8 d) key 16)
    simpa using this
  refine ⟨hL, ?_, ?_⟩
  · by_cases hok : Nat.xor (d.getD 0 0) (ch (lastBytes 8 d) key 16) + 32
      ≤ d.length
    · unfold xt_unobfs
      rw [if_neg (by omega), restore_wg_ok ch key d hok]
      simpa using hok
    · unfold xt_unobfs
      rw [if_neg (by omega), restore_wg_fail ch key d (by omega)]
      simpa using hok
  · intro m hm
    by_cases hok : Nat.xor (d.getD 0 0) (ch (lastBytes 8 d) key 16) + 32
      ≤ d.length
    · unfold xt_unobfs at hm
      rw [if_neg (by omega), restore_wg_ok ch key d hok] at hm
      dsimp only at hm
      injection hm with hm
      rw [← hm, length_restore_mac2, length_mask16, List.length_drop,
        length_writeAt]
    · unfold xt_unobfs at hm
      rw [if_neg (by omega), restore_wg_fail ch key d (by omega)] at hm
      exact absurd hm (by simp)

theorem mem_map_range_int (f : Nat → Int) (n : Nat) (i : Int)
    (h : i ∈ (List.range n).map f) : ∃ a, a < n ∧ f a = i := by
  obtain ⟨a, ha, hfa⟩ := List.mem_map.mp h
  exact ⟨a, List.mem_range.mp ha, hfa⟩

/-- Claim C4 (amended): for datagrams of length at least 8 — not 4 as the
claim states — every byte offset read by the decode path lies inside the
datagram.  For lengths 4..7 the chacha8 seed read at `buf + len - 8` starts
before the buffer (see the counterexample). -/
theorem decode_reads_in_bounds (ch : Chacha) (key d : List Nat)
    (h8 : 8 ≤ d.length) :
    ∀ i ∈ decodeReads ch key d, 0 ≤ i ∧ i < (d.length : Int) := by
  intro i hi
  unfold decodeReads at hi
  rw [if_neg (by omega)] at hi
  dsimp only at hi
  by_cases hc : Nat.xor (d.getD 0 0) (ch (lastBytes 8 d) key 16) + 32
      > d.length
  · rw [if_pos hc] at hi
    rcases List.mem_append.mp hi with h | h
    · obtain ⟨a, ha, rfl⟩ := mem_map_range_int _ _ _ h
      constructor <;> omega
    · have h0 : i = 0 := by simpa using h
      subst h0
      constructor <;> omega
  · rw [if_neg hc] at hi
    push_neg at hc
    rcases List.mem_append.mp hi with h | h
    · rcases List.mem_append.mp h with h | h
      · rcases List.mem_append.mp h with h | h
        · rcases List.mem_append.mp h with h | h
          · obtain ⟨a, ha, rfl⟩ := mem_map_range_int _ _ _ h
            constructor <;> omega
          · have h0 : i = 0 := by simpa using h
            subst h0
            constructor <;> omega
        · obtain ⟨a, ha, rfl⟩ := mem_map_range_int _ _ _ h
          constructor <;> omega
      · obtain ⟨a, ha, rfl⟩ := mem_map_range_int _ _ _ h
        constructor <;> omega
    · have h0 : i = 0 := by simpa using h
      subst h0
      constructor <;> omega

/-- Claim C4 counterexample: a 4-byte datagram satisfies the claimed
precondition, yet the decode path reads offset -4 (the seed read
`buf + len - 8` reaches 4 bytes before the buffer). -/
theorem decode_reads_cex :
    4 ≤ ([1, 2, 3, 4] : List Nat).length ∧
    ¬ (∀ i ∈ decodeReads wCh [] [1, 2, 3, 4],
        0 ≤ i ∧ i < (([1, 2, 3, 4] : List Nat).length : Int)) := by
  refine ⟨by decide, by decide⟩

/-- Claim C4 witness: all decode reads on a concrete 40-byte datagram are in
bounds. -/
theorem decode_reads_in_bounds_witness :
    8 ≤ (List.replicate 40 0 : List Nat).length ∧
    ∀ i ∈ decodeReads wCh [] (List.replicate 40 0),
      0 ≤ i ∧ i < ((List.replicate 40 0 : List Nat).length : Int) :=
  ⟨by decide, decode_reads_in_bounds wCh [] (List.replicate 40 0) (by decide)⟩

/-- Claim C1 (code bug): the round trip fails on the code because `xt_obfs`
computes the padding length into a local (line 202) and never assigns
`ob.rnd_len`, yet `obfs_wg` pads by that field (line 142).  Encoding the
32-byte data message `wData32` with selected padding 4 but uninitialized
field value 0 (tailroom zeroed) transmits the message unshifted followed by 4
stale bytes; decoding that datagram strips 4 real message bytes and returns a
message different from the original. -/
theorem roundtrip_padding_bug :
    xt_obfs wCh [] wStream 1 0 wJunk wData32
        = some (wData32 ++ [0, 0, 0, 0])
      ∧ (xt_unobfs wCh [] (wData32 ++ [0, 0, 0, 0])).fst
        = some (List.replicate 28 9 ++ [0, 0, 0, 0])
      ∧ List.replicate 28 9 ++ [0, 0, 0, 0] ≠ wData32 :=
  ⟨by decide, by decide, by decide⟩

/-- Claim C2 counterexample: a 20-byte buffer of bytes 7 (length below 32
and an unrecognized type byte) is not returned unchanged by encode — the
encoder pads and masks it — and decode drops it rather than passing it
through. -/
theorem passthrough_cex :
    xt_obfs wCh [] wStream 1 3 wJunk (List.replicate 20 7)
        = some (3 :: 4 :: 4 :: (List.replicate 20 7 ++ [0]))
      ∧ (3 :: 4 :: 4 :: (List.replicate 20 7 ++ [0]) : List Nat)
        ≠ List.replicate 20 7
      ∧ (xt_unobfs wCh [] (List.replicate 20 7)).fst
        ≠ some (List.replicate 20 7) :=
  ⟨by decide, by decide, by decide⟩

/-- Claim C2 witness: the amended statement evaluated on a concrete 20-byte
buffer. -/
theorem short_or_unknown_not_passthrough_witness :
    ((List.replicate 20 7 : List Nat).length + 4
        ≤ (3 :: 4 :: 4 :: (List.replicate 20 7 ++ [0]) : List Nat).length
      ∧ (3 :: 4 :: 4 :: (List.replicate 20 7 ++ [0]) : List Nat)
        ≠ List.replicate 20 7)
    ∧ ((List.replicate 20 7 : List Nat).length < 32 →
        (xt_unobfs wCh [] (List.replicate 20 7)).fst = none) :=
  short_or_unknown_not_passthrough wCh [] wStream 1 3 wJunk
    (List.replicate 20 7) _ (by decide)

/-- Claim C3 counterexample: decoding a 10-byte all-zero datagram with a
keystream whose byte 16 is 1 fails the length check, and the buffer left
behind has byte 0 changed to 1 — it is not byte-identical to its state before
the call. -/
theorem decode_failure_mutation_cex :
    xt_unobfs wChP [] (List.replicate 10 0)
        = (none, 1 :: List.replicate 9 0)
      ∧ 1 :: List.replicate 9 0 ≠ List.replicate 10 0 :=
  ⟨by decide, by decide⟩

/-- Claim C3 witness: the failure shape evaluated on a concrete 10-byte
datagram. -/
theorem decode_failure_conditions_witness :
    xt_unobfs wChP [] (List.replicate 10 0)
      = (none, Nat.xor ((List.replicate 10 0 : List Nat).getD 0 0)
          (wChP (lastBytes 8 (List.replicate 10 0)) [] 16)
        :: (List.replicate 10 0 : List Nat).drop 1) :=
  (decode_failure_conditions wChP [] (List.replicate 10 0)).2.2 (by decide)
    (by decide)

/-- Claim C5 witness: the length bound evaluated on a concrete 20-byte
buffer. -/
theorem encode_length_bound_witness :
    ∃ r, (3 :: 4 :: 4 :: (List.replicate 20 7 ++ [0]) : List Nat).length
        = (List.replicate 20 7 : List Nat).length + r
      ∧ 4 ≤ r ∧ r ≤ 32
      ∧ (200 < (List.replicate 20 7 : List Nat).length → r ≤ 8) :=
  encode_length_bound wCh [] wStream 1 3 wJunk (List.replicate 20 7) _
    (by decide)

/-- Claim C7 witness: no-op and idempotence evaluated on a concrete
148-byte handshake initiation with a nonzero tag. -/
theorem mac2_randomize_idempotent_witness :
    obfs_mac2 wCh [] wInitNZ = wInitNZ
      ∧ obfs_mac2 wCh [] (obfs_mac2 wCh [] wInitNZ)
        = obfs_mac2 wCh [] wInitNZ :=
  ⟨(mac2_randomize_idempotent wCh [] wInitNZ).1 (by decide) (by decide),
    (mac2_randomize_idempotent wCh [] wInitNZ).2⟩

/-- Claim C8 (code bug): the claimed frame effect fails on the code because
`obfs_wg` pads by the never-assigned `ob->rnd_len` while the datagram grows by
the selected length.  Encoding the 32-byte data message `wData32` with
selected padding 4 but uninitialized field value 2 (tailroom zeroed) yields a
36-byte datagram whose bytes from offset 4+16 onward are not byte-identical
to the original message's bytes from offset 16 onward: the message sits 2
bytes too early and 2 stale bytes end the datagram. -/
theorem frame_effect_padding_bug :
    xt_obfs wCh [] wStream 1 2 wJunk wData32
        = some ([2, 4] ++ wData32 ++ [0, 0])
      ∧ ([2, 4] ++ wData32 ++ [0, 0]).drop (4 + 16) ≠ wData32.drop 16 :=
  ⟨by decide, by decide⟩

/-- Claim C9 witness: the selector terminates on the constant stream whose
block 0 contains an in-range byte. -/
theorem selector_range_and_termination_witness :
    ∃ r blk, get_random_insert wStream 4 32 1 0 = some (r, blk) :=
  (selector_range_and_termination wStream 4 32 0 (by decide) (by decide)
    (by decide) ⟨4, by decide, by decide⟩).1 1 (by decide)

/-- Claim C10 witness: decode on a 36-byte all-zero datagram recovers L = 0
and strips nothing. -/
theorem decode_padding_length_validation_witness :
    Nat.xor ((List.replicate 36 0 : List Nat).getD 0 0)
        (wCh (lastBytes 8 (List.replicate 36 0)) [] 16) < 256
      ∧ ((xt_unobfs wCh [] (List.replicate 36 0)).fst.isSome = true ↔
          Nat.xor ((List.replicate 36 0 : List Nat).getD 0 0)
              (wCh (lastBytes 8 (List.replicate 36 0)) [] 16) + 32
            ≤ (List.replicate 36 0 : List Nat).length)
      ∧ (∀ m, (xt_unobfs wCh [] (List.replicate 36 0)).fst = some m →
          m.length = (List.replicate 36 0 : List Nat).length
            - Nat.xor ((List.replicate 36 0 : List Nat).getD 0 0)
                (wCh (lastBytes 8 (List.replicate 36 0)) [] 16)) :=
  decode_padding_length_validation wCh [] (List.replicate 36 0) (by decide)
    (by decide) (fun _ _ _ => by simp [wCh])

end WGObfs
